import Mathlib

/-!
Shallow embedding of the `diceware` passphrase generator
(`diceware/__init__.py` and `diceware/random_sources.py`).

Strings are modelled as `List Char`.  A randomness source is modelled as an
infinite stream of natural numbers `Rnd := Nat → Nat`: each call to
`choice` consumes the head of the stream (reduced modulo the sequence
length, so every element is reachable) and advances the stream.  Python
exceptions are modelled by `Except Err`: `random.choice` on an empty
sequence raises `IndexError`, and `get_wordlist_path` raises `ValueError`
on an invalid language code.
-/

/-- Python exceptions raised by the modelled code: `IndexError`
(from `random.choice` on an empty sequence) and `ValueError`
(from `get_wordlist_path`). -/
inductive Err where
  | indexError : Err
  | valueError : Err
deriving DecidableEq, Repr

instance {ε α : Type} [DecidableEq ε] [DecidableEq α] :
    DecidableEq (Except ε α) := fun x y =>
  match x, y with
  | .error a, .error b =>
      if h : a = b then .isTrue (by rw [h])
      else .isFalse (by intro hc; cases hc; exact h rfl)
  | .error _, .ok _ => .isFalse (by intro hc; cases hc)
  | .ok _, .error _ => .isFalse (by intro hc; cases hc)
  | .ok a, .ok b =>
      if h : a = b then .isTrue (by rw [h])
      else .isFalse (by intro hc; cases hc; exact h rfl)

/-- A source of randomness: an infinite stream of naturals. -/
abbrev Rnd := Nat → Nat

/-- Advance the stream past its first element. -/
def Rnd.next (r : Rnd) : Rnd := fun k => r (k + 1)

/-- The all-zeros stream (a deterministic test double that always picks
index 0, like the fake sources used in the project's tests). -/
def rnd0 : Rnd := fun _ => 0

/-- Model of `SystemRandomSource.choice` (random_sources.py): pick one item out of
`sequence`.  On an empty sequence `random.choice` raises `IndexError`.
The stream head is taken modulo the length, so any element can be
returned for a suitable stream. -/
def choice {α : Type} (r : Rnd) (l : List α) : Except Err (α × Rnd) :=
  match l with
  | [] => .error .indexError
  | a :: as =>
      .ok ((a :: as).get ⟨r 0 % (a :: as).length, Nat.mod_lt _ (Nat.succ_pos as.length)⟩,
           r.next)

/-- Constant `SPECIAL_CHARS` (diceware/__init__.py line 36): the characters of the
Python string `r"~!#$%^&*()-=+[]\{}:;" + r'"' + r"'<>?/0123456789"`. -/
def SPECIAL_CHARS : List Char :=
  ['~', '!', '#', '$', '%', '^', '&', '*', '(', ')', '-', '=', '+',
   '[', ']', '\\', '{', '}', ':', ';', '"', '\'', '<', '>', '?', '/',
   '0', '1', '2', '3', '4', '5', '6', '7', '8', '9']

/-- Python's built-in `str.capitalize` (used at line 198): return a copy
with the first character upper-cased and all remaining characters
LOWER-cased (per the Python documentation), modelled for ASCII via
`Char.toUpper`/`Char.toLower`. -/
def pyCapitalize (w : List Char) : List Char :=
  match w with
  | [] => []
  | c :: cs => c.toUpper :: cs.map Char.toLower

/-- Python's `str.join` as used at line 199: `delimiter.join(words)`
interleaves the delimiter between consecutive words. -/
def pyJoin (d : List Char) : List (List Char) → List Char
  | [] => []
  | [w] => w
  | w :: ws => w ++ d ++ pyJoin d ws

/-- Model of `insert_special_char(word, specials, rnd)` (lines 157-169):
`char_list = list(word); char_list[rnd.choice(range(len(char_list)))] =
rnd.choice(specials); return ''.join(char_list)`.  Python evaluates the
right-hand side of the assignment first, so the stream is consumed in the
order: special character, then index. -/
def insert_special_char (word : List Char) (specials : List Char) (r : Rnd) :
    Except Err (List Char × Rnd) :=
  match choice r specials with
  | .error e => .error e
  | .ok (c, r1) =>
      match choice r1 (List.range word.length) with
      | .error e => .error e
      | .ok (i, r2) => .ok (word.set i c, r2)

/-- The configuration fields of the parsed command line consumed by
`get_passphrase` (argparse gives Python ints, which may be negative). -/
structure Options where
  num : Int
  capitalize : Bool
  specials : Int
  delimiter : List Char

/-- The list comprehension at line 196:
`[rnd.choice(word_list) for x in range(options.num)]`, selecting `n`
words left to right with the shared randomness source. -/
def select_words : Nat → List (List Char) → Rnd →
    Except Err (List (List Char) × Rnd)
  | 0, _, r => .ok ([], r)
  | n + 1, wl, r =>
      match choice r wl with
      | .error e => .error e
      | .ok (w, r1) =>
          match select_words n wl r1 with
          | .error e => .error e
          | .ok (ws, r2) => .ok (w :: ws, r2)

/-- The loop at lines 200-201: `for _ in range(options.specials): result =
insert_special_char(result, rnd=rnd)`, each pass using the default
alphabet `SPECIAL_CHARS` and seeing the previous pass's output. -/
def apply_specials : Nat → List Char → Rnd → Except Err (List Char × Rnd)
  | 0, s, r => .ok (s, r)
  | k + 1, s, r =>
      match insert_special_char s SPECIAL_CHARS r with
      | .error e => .error e
      | .ok (s1, r1) => apply_specials k s1 r1

/-- Model of `get_passphrase` (lines 172-202), taking the already-materialised
`word_list` and randomness source (file loading and registry lookup are
external collaborators).  `range` of a negative Python int is empty,
modelled by `Int.toNat`.  Returns the final passphrase string. -/
def get_passphrase (options : Options) (word_list : List (List Char))
    (r : Rnd) : Except Err (List Char) :=
  match select_words options.num.toNat word_list r with
  | .error e => .error e
  | .ok (words, r1) =>
      match apply_specials options.specials.toNat
          (pyJoin options.delimiter
            (if options.capitalize then words.map pyCapitalize else words)) r1 with
      | .error e => .error e
      | .ok (res, _) => .ok res

/-- The wordlists directory (`WORDLISTS_DIR`, line 28).  Its absolute
value depends on the installation location and is irrelevant to the
claims; only that it is a fixed prefix matters. -/
def WORDLISTS_DIR : List Char := ['w', 'o', 'r', 'd', 'l', 'i', 's', 't', 's']

/-- Decide whether `c` lies in the character class `[a-zA-Z]`. -/
def isAsciiLetter (c : Char) : Bool :=
  ('a' ≤ c && c ≤ 'z') || ('A' ≤ c && c ≤ 'Z')

/-- Model of `RE_LANG_CODE.match(lang)` with pattern `^[a-zA-Z]{2}$` (line 33)
under Python `re` semantics: `$` matches at the end of the string OR just
before a single newline at the end of the string, so `"ab\n"` also
matches. -/
def re_lang_code_match : List Char → Bool
  | [a, b] => isAsciiLetter a && isAsciiLetter b
  | [a, b, c] => isAsciiLetter a && isAsciiLetter b && c == '\n'
  | _ => false

/-- Model of `get_wordlist_path(lang)` (lines 145-154): raise `ValueError` unless
the language-code regex matches, else join `WORDLISTS_DIR` with the
lower-cased basename `('wordlist_%s.txt' % lang).lower()`. -/
def get_wordlist_path (lang : List Char) : Except Err (List Char) :=
  if re_lang_code_match lang then
    .ok (WORDLISTS_DIR ++ '/' ::
      ((['w', 'o', 'r', 'd', 'l', 'i', 's', 't', '_'] ++ lang ++
        ['.', 't', 'x', 't']).map Char.toLower))
  else
    .error .valueError

/-- Spec-side predicate, from the claim's words: `lang` is a string of
exactly two ASCII letters. -/
def twoAsciiLetters : List Char → Bool
  | [a, b] => isAsciiLetter a && isAsciiLetter b
  | _ => false

/-! Helper lemmas shared by the claim theorems. -/

theorem choice_ok_mem {α : Type} {r : Rnd} {l : List α} {a : α} {r' : Rnd}
    (h : choice r l = .ok (a, r')) : a ∈ l := by
  cases l with
  | nil => simp [choice] at h
  | cons x xs =>
      simp only [choice, Except.ok.injEq, Prod.mk.injEq] at h
      exact h.1 ▸ List.get_mem _ _ _

theorem choice_ok_of_ne {α : Type} (r : Rnd) {l : List α} (hl : l ≠ []) :
    ∃ a r', choice r l = .ok (a, r') := by
  cases l with
  | nil => exact absurd rfl hl
  | cons x xs => exact ⟨_, _, rfl⟩

theorem choice_nil {α : Type} (r : Rnd) :
    choice r ([] : List α) = .error .indexError := rfl

theorem select_words_ok_mem {n : Nat} {wl : List (List Char)} {r : Rnd}
    {ws : List (List Char)} {r' : Rnd}
    (h : select_words n wl r = .ok (ws, r')) : ∀ w ∈ ws, w ∈ wl := by
  induction n generalizing r ws r' with
  | zero =>
      simp only [select_words, Except.ok.injEq, Prod.mk.injEq] at h
      rw [← h.1]
      intro w hw
      simp at hw
  | succ n ih =>
      rw [select_words] at h
      split at h
      · exact absurd h (by simp)
      · rename_i w1 r1 hc
        split at h
        · exact absurd h (by simp)
        · rename_i ws1 r2 hs
          simp only [Except.ok.injEq, Prod.mk.injEq] at h
          rw [← h.1]
          intro w hw
          rcases List.mem_cons.mp hw with hw | hw
          · exact hw ▸ choice_ok_mem hc
          · exact ih hs w hw

theorem select_words_ok_length {n : Nat} {wl : List (List Char)} {r : Rnd}
    {ws : List (List Char)} {r' : Rnd}
    (h : select_words n wl r = .ok (ws, r')) : ws.length = n := by
  induction n generalizing r ws r' with
  | zero =>
      simp only [select_words, Except.ok.injEq, Prod.mk.injEq] at h
      rw [← h.1]
      rfl
  | succ n ih =>
      rw [select_words] at h
      split at h
      · exact absurd h (by simp)
      · rename_i w1 r1 hc
        split at h
        · exact absurd h (by simp)
        · rename_i ws1 r2 hs
          simp only [Except.ok.injEq, Prod.mk.injEq] at h
          rw [← h.1]
          simp [ih hs]

theorem select_words_nil_err {n : Nat} {r : Rnd}
    (hn : n ≠ 0) : select_words n [] r = .error .indexError := by
  cases n with
  | zero => exact absurd rfl hn
  | succ n => rw [select_words]; rfl

theorem pyJoin_mem {d : List Char} {ws : List (List Char)} {c : Char}
    (h : c ∈ pyJoin d ws) : (∃ w ∈ ws, c ∈ w) ∨ c ∈ d := by
  induction ws with
  | nil => simp [pyJoin] at h
  | cons w ws ih =>
      cases ws with
      | nil =>
          simp only [pyJoin] at h
          exact .inl ⟨w, by simp, h⟩
      | cons w2 ws2 =>
          have hj : pyJoin d (w :: w2 :: ws2) = w ++ d ++ pyJoin d (w2 :: ws2) := rfl
          rw [hj] at h
          rcases List.mem_append.mp h with h1 | h1
          · rcases List.mem_append.mp h1 with h2 | h2
            · exact .inl ⟨w, by simp, h2⟩
            · exact .inr h2
          · rcases ih h1 with ⟨w3, hw3, hc⟩ | h2
            · exact .inl ⟨w3, by simp [hw3], hc⟩
            · exact .inr h2

theorem pyJoin_length {d : List Char} {ws : List (List Char)} (hws : ws ≠ []) :
    (pyJoin d ws).length = (ws.map List.length).sum + d.length * (ws.length - 1) := by
  induction ws with
  | nil => exact absurd rfl hws
  | cons w ws ih =>
      cases ws with
      | nil => simp [pyJoin]
      | cons w2 ws2 =>
          have hj : pyJoin d (w :: w2 :: ws2) = w ++ d ++ pyJoin d (w2 :: ws2) := rfl
          have h2 := ih (by simp)
          rw [hj, List.length_append, List.length_append, h2]
          simp only [List.map_cons, List.sum_cons, List.length_cons,
            Nat.add_sub_cancel, Nat.mul_succ]
          omega

theorem pyCapitalize_length (w : List Char) :
    (pyCapitalize w).length = w.length := by
  cases w with
  | nil => rfl
  | cons c cs => simp [pyCapitalize]

theorem insert_ok_length {word specials : List Char} {r : Rnd}
    {res : List Char} {r' : Rnd}
    (h : insert_special_char word specials r = .ok (res, r')) :
    res.length = word.length := by
  rw [insert_special_char] at h
  split at h
  · exact absurd h (by simp)
  · split at h
    · exact absurd h (by simp)
    · simp only [Except.ok.injEq, Prod.mk.injEq] at h
      rw [← h.1]
      exact List.length_set ..

theorem insert_ok_set {word specials : List Char} {r : Rnd}
    {res : List Char} {r' : Rnd}
    (h : insert_special_char word specials r = .ok (res, r')) :
    ∃ i c, i < word.length ∧ c ∈ specials ∧ res = word.set i c := by
  rw [insert_special_char] at h
  split at h
  · exact absurd h (by simp)
  · rename_i c r1 hc
    split at h
    · exact absurd h (by simp)
    · rename_i i r2 hi
      simp only [Except.ok.injEq, Prod.mk.injEq] at h
      have hmem : i ∈ List.range word.length := choice_ok_mem hi
      exact ⟨i, c, List.mem_range.mp hmem, choice_ok_mem hc, h.1.symm⟩

theorem insert_ok_mem {word specials : List Char} {r : Rnd}
    {res : List Char} {r' : Rnd}
    (h : insert_special_char word specials r = .ok (res, r')) :
    ∀ c ∈ res, c ∈ word ∨ c ∈ specials := by
  obtain ⟨i, c0, _, hc0, hres⟩ := insert_ok_set h
  intro c hc
  rw [hres] at hc
  rcases List.mem_or_eq_of_mem_set hc with h1 | h1
  · exact .inl h1
  · exact .inr (h1 ▸ hc0)

theorem insert_ok_of_ne {word specials : List Char} (r : Rnd)
    (hw : word ≠ []) (hs : specials ≠ []) :
    ∃ res r', insert_special_char word specials r = .ok (res, r') := by
  obtain ⟨c, r1, hc⟩ := choice_ok_of_ne r hs
  have hrange : List.range word.length ≠ [] := by
    cases word with
    | nil => exact absurd rfl hw
    | cons x xs => simp [List.range_succ]
  obtain ⟨i, r2, hi⟩ := choice_ok_of_ne r1 hrange
  refine ⟨word.set i c, r2, ?_⟩
  simp only [insert_special_char, hc, hi]

theorem insert_nil_err {specials : List Char} {r : Rnd} (hs : specials ≠ []) :
    insert_special_char [] specials r = .error .indexError := by
  obtain ⟨c, r1, hc⟩ := choice_ok_of_ne r hs
  rw [insert_special_char, hc]
  rfl

theorem SPECIAL_CHARS_ne_nil : SPECIAL_CHARS ≠ [] := by decide

theorem apply_specials_ok_length {k : Nat} {s : List Char} {r : Rnd}
    {res : List Char} {r' : Rnd}
    (h : apply_specials k s r = .ok (res, r')) : res.length = s.length := by
  induction k generalizing s r with
  | zero =>
      simp only [apply_specials, Except.ok.injEq, Prod.mk.injEq] at h
      rw [h.1]
  | succ k ih =>
      rw [apply_specials] at h
      split at h
      · exact absurd h (by simp)
      · rename_i s1 r1 h1
        rw [ih h, insert_ok_length h1]

theorem apply_specials_ok_mem {k : Nat} {s : List Char} {r : Rnd}
    {res : List Char} {r' : Rnd}
    (h : apply_specials k s r = .ok (res, r')) :
    ∀ c ∈ res, c ∈ s ∨ c ∈ SPECIAL_CHARS := by
  induction k generalizing s r with
  | zero =>
      simp only [apply_specials, Except.ok.injEq, Prod.mk.injEq] at h
      rw [← h.1]
      exact fun c hc => .inl hc
  | succ k ih =>
      rw [apply_specials] at h
      split at h
      · exact absurd h (by simp)
      · rename_i s1 r1 h1
        intro c hc
        rcases ih h c hc with h2 | h2
        · exact insert_ok_mem h1 c h2
        · exact .inr h2

theorem apply_specials_ok_of_ne {k : Nat} {s : List Char} (r : Rnd)
    (hs : s ≠ []) :
    ∃ res r', apply_specials k s r = .ok (res, r') ∧ res.length = s.length := by
  induction k generalizing s r with
  | zero => exact ⟨s, r, rfl, rfl⟩
  | succ k ih =>
      obtain ⟨s1, r1, h1⟩ := insert_ok_of_ne r hs SPECIAL_CHARS_ne_nil
      have hlen : s1.length = s.length := insert_ok_length h1
      have hs1 : s1 ≠ [] := by
        intro hnil
        rw [hnil] at hlen
        exact hs (List.eq_nil_of_length_eq_zero hlen.symm)
      obtain ⟨res, r', h2, h3⟩ := ih r1 hs1
      refine ⟨res, r', ?_, by rw [h3, hlen]⟩
      rw [apply_specials]
      simp only [h1, h2]

theorem apply_specials_nil_err {k : Nat} {r : Rnd} :
    apply_specials (k + 1) [] r = .error .indexError := by
  rw [apply_specials, insert_nil_err SPECIAL_CHARS_ne_nil]

theorem gen_zero {opts : Options} {wl : List (List Char)} (r : Rnd)
    (hn : opts.num ≤ 0) (hs : opts.specials = 0) :
    get_passphrase opts wl r = .ok [] := by
  have hn0 : opts.num.toNat = 0 := Int.toNat_of_nonpos hn
  rw [get_passphrase, hn0, hs]
  cases hc : opts.capitalize <;> simp [select_words, apply_specials, pyJoin]

/-! Theorems for the individual claims. -/

/-- C7: with `config.num = 0` and `config.specials = 0`, for any wordlist,
`get_passphrase` returns the empty string (the join of zero words) and
does not raise an error. -/
theorem C7_num_zero_specials_zero (opts : Options) (wl : List (List Char))
    (r : Rnd) (h0 : opts.num = 0) (hs : opts.specials = 0) :
    get_passphrase opts wl r = .ok [] :=
  gen_zero r (le_of_eq h0) hs

theorem C7_witness :
    get_passphrase ⟨0, true, 0, []⟩ [['a']] rnd0 = .ok [] :=
  C7_num_zero_specials_zero ⟨0, true, 0, []⟩ [['a']] rnd0 rfl rfl

/-- C9: with `config.num < 0` and `config.specials = 0`, `get_passphrase`
selects zero words (Python `range` of a negative int is empty), returns
the empty string with no error, and behaves exactly as if `num` were 0. -/
theorem C9_negative_num (opts : Options) (wl : List (List Char)) (r : Rnd)
    (hneg : opts.num < 0) (hs : opts.specials = 0) :
    get_passphrase opts wl r = .ok [] ∧
    get_passphrase opts wl r =
      get_passphrase ⟨0, opts.capitalize, opts.specials, opts.delimiter⟩ wl r := by
  have h1 := @gen_zero opts wl r (le_of_lt hneg) hs
  have h2 := @gen_zero (Options.mk 0 opts.capitalize opts.specials opts.delimiter)
    wl r (le_refl (0 : Int)) hs
  exact ⟨h1, h1.trans h2.symm⟩

theorem C9_witness :
    get_passphrase ⟨-1, true, 0, []⟩ [['a']] rnd0 = .ok [] :=
  (C9_negative_num ⟨-1, true, 0, []⟩ [['a']] rnd0 (by decide) rfl).1

/-- C2 counterexample: the claim quantifies over every configuration, but
with `num = 0` and `specials = 0` an empty wordlist is silently accepted
and yields the empty passphrase instead of failing (the code performs no
non-emptiness validation before selection). -/
theorem C2_cex : get_passphrase ⟨0, true, 0, []⟩ [] rnd0 = .ok [] := by
  decide

/-- C2 amended: whenever at least one word is to be selected
(`num ≥ 1`), `get_passphrase` on an empty wordlist fails at the first
word selection with the `IndexError` that `random.choice` raises on an
empty sequence (the code's realization of `EmptyWordlist`); in
particular `num = 1` fails, and an empty wordlist is never silently
accepted when `num ≥ 1`. -/
theorem C2_empty_wordlist (opts : Options) (r : Rnd) (h : 1 ≤ opts.num) :
    get_passphrase opts [] r = .error .indexError := by
  have hn : opts.num.toNat ≠ 0 := by omega
  rw [get_passphrase, select_words_nil_err hn]

theorem C2_witness :
    get_passphrase ⟨1, true, 0, []⟩ [] rnd0 = .error .indexError :=
  C2_empty_wordlist ⟨1, true, 0, []⟩ rnd0 (by decide)

/-- C4: on a non-empty word and a non-empty specials alphabet,
`insert_special_char` succeeds and returns a string of exactly the same
length as `word`; consequently, for all `k ≥ 0`, `k` insertion passes on
a non-empty string succeed and leave its length unchanged. -/
theorem C4_insert_preserves_length (word specials : List Char) (r : Rnd)
    (hw : word ≠ []) (hs : specials ≠ []) :
    (∃ p, insert_special_char word specials r = .ok p) ∧
    (∀ res r', insert_special_char word specials r = .ok (res, r') →
      res.length = word.length) ∧
    (∀ k, ∃ p, apply_specials k word r = .ok p) ∧
    (∀ k res r', apply_specials k word r = .ok (res, r') →
      res.length = word.length) := by
  obtain ⟨res, r', h⟩ := insert_ok_of_ne r hw hs
  refine ⟨⟨(res, r'), h⟩, fun res r' h => insert_ok_length h, fun k => ?_,
    fun k res r' h => apply_specials_ok_length h⟩
  obtain ⟨res2, r2, h2, _⟩ := @apply_specials_ok_of_ne k word r hw
  exact ⟨(res2, r2), h2⟩

theorem C4_witness :
    (['~', 'b'] : List Char).length = (['a', 'b'] : List Char).length :=
  (C4_insert_preserves_length ['a', 'b'] SPECIAL_CHARS rnd0 (by decide)
    (by decide)).2.1 ['~', 'b'] (Rnd.next (Rnd.next rnd0)) rfl

/-- C6: with the default alphabet `SPECIAL_CHARS`, `insert_special_char`
fails (with the `IndexError` of choosing from the empty index range) if
and only if `word` is empty; consequently `get_passphrase` with
`num = 0` and `specials ≥ 1` fails with that error, propagated as fatal
rather than guarded. -/
theorem C6_empty_input (word : List Char) (r : Rnd) (opts : Options)
    (wl : List (List Char)) (hnum : opts.num = 0) (hspec : 1 ≤ opts.specials) :
    ((∃ e, insert_special_char word SPECIAL_CHARS r = .error e) ↔ word = []) ∧
    get_passphrase opts wl r = .error .indexError := by
  constructor
  · constructor
    · rintro ⟨e, he⟩
      by_contra hw
      obtain ⟨res, r', h⟩ := insert_ok_of_ne r hw SPECIAL_CHARS_ne_nil
      rw [h] at he
      exact absurd he (by simp)
    · intro hw
      rw [hw]
      exact ⟨.indexError, insert_nil_err SPECIAL_CHARS_ne_nil⟩
  · have hn0 : opts.num.toNat = 0 := by omega
    obtain ⟨k, hk⟩ : ∃ k, opts.specials.toNat = k + 1 :=
      ⟨opts.specials.toNat - 1, by omega⟩
    cases hc : opts.capitalize <;>
      simp [get_passphrase, hn0, hk, hc, select_words, pyJoin,
        apply_specials_nil_err]

theorem C6_witness :
    get_passphrase ⟨0, true, 1, []⟩ [] rnd0 = .error .indexError :=
  (C6_empty_input ['a'] rnd0 ⟨0, true, 1, []⟩ [] rfl (by decide)).2

/-- C5: when `N ≥ 1` words of lengths `l1..lN` are selected and the
delimiter has length `L`, the final passphrase has length
`sum(li) + L*(N-1)`, unaffected by the special-character insertion
passes. -/
theorem C5_passphrase_length (opts : Options) (wl : List (List Char))
    (r : Rnd) (ws : List (List Char)) (r1 : Rnd) (res : List Char)
    (hsel : select_words opts.num.toNat wl r = .ok (ws, r1))
    (hN : 1 ≤ ws.length)
    (hgen : get_passphrase opts wl r = .ok res) :
    res.length = (ws.map List.length).sum +
      opts.delimiter.length * (ws.length - 1) := by
  rw [get_passphrase] at hgen
  split at hgen
  · exact absurd hgen (by simp)
  · rename_i ws' r1' hsel'
    rw [hsel] at hsel'
    simp only [Except.ok.injEq, Prod.mk.injEq] at hsel'
    obtain ⟨hws, _⟩ := hsel'
    subst hws
    split at hgen
    · exact absurd hgen (by simp)
    · rename_i res' r2 happ
      simp only [Except.ok.injEq] at hgen
      subst hgen
      have hws0 : ws ≠ [] := by
        intro h
        rw [h] at hN
        simp at hN
      have hlen1 : (if opts.capitalize then ws.map pyCapitalize else ws).length =
          ws.length := by
        cases opts.capitalize <;> simp
      have hne : (if opts.capitalize then ws.map pyCapitalize else ws) ≠ [] := by
        apply List.ne_nil_of_length_pos
        rw [hlen1]
        exact List.length_pos_of_ne_nil hws0
      have hmaplen : (if opts.capitalize then ws.map pyCapitalize else ws).map
          List.length = ws.map List.length := by
        cases opts.capitalize <;>
          simp [List.map_map, Function.comp, pyCapitalize_length]
      rw [apply_specials_ok_length happ, pyJoin_length hne, hmaplen, hlen1]

theorem C5_witness :
    (['a', 'b', '-', 'a', 'b'] : List Char).length =
      ([['a', 'b'], ['a', 'b']].map List.length).sum +
        (['-'] : List Char).length * ([['a', 'b'], ['a', 'b']].length - 1) :=
  C5_passphrase_length ⟨2, false, 0, ['-']⟩ [['a', 'b']] rnd0
    [['a', 'b'], ['a', 'b']] (Rnd.next (Rnd.next rnd0))
    ['a', 'b', '-', 'a', 'b'] rfl (by decide) rfl

/-- C10: a successful `insert_special_char` returns a string of the same
length that differs from `word` at at most one index, and the character
at the single replaced index belongs to the specials alphabet (it may
equal the original character, so zero visible differences are
possible). -/
theorem C10_at_most_one_change (word specials : List Char) (r : Rnd)
    (res : List Char) (r' : Rnd) (_hw : word ≠ []) (_hs : specials ≠ [])
    (h : insert_special_char word specials r = .ok (res, r')) :
    res.length = word.length ∧
    ∃ i, i < word.length ∧
      (∀ j, j ≠ i → res.getD j ' ' = word.getD j ' ') ∧
      res.getD i ' ' ∈ specials := by
  obtain ⟨i, c, hi, hc, hres⟩ := insert_ok_set h
  refine ⟨insert_ok_length h, i, hi, ?_, ?_⟩
  · intro j hj
    rw [hres, List.getD_eq_getElem?_getD, List.getD_eq_getElem?_getD,
      List.getElem?_set_ne (Ne.symm hj)]
  · rw [hres, List.getD_eq_getElem?_getD, List.getElem?_set_eq_of_lt c hi]
    simpa using hc

theorem C10_witness :
    (['~', 'b'] : List Char).getD 0 ' ' ∈ SPECIAL_CHARS := by
  have h := C10_at_most_one_change ['a', 'b'] SPECIAL_CHARS rnd0 ['~', 'b']
    (Rnd.next (Rnd.next rnd0)) (by decide) (by decide) rfl
  obtain ⟨-, i, hi, hne, hmem⟩ := h
  have hi0 : i = 0 := by
    by_contra hne0
    have := hne 0 (fun h0 => hne0 h0.symm)
    simp at this
  rw [hi0] at hmem
  exact hmem

/-- C1 counterexample: the code applies Python `str.capitalize`, which
lower-cases every character after the first, so the word `"aBc"` becomes
`"Abc"`, not the claimed `"ABc"` (uppercase letters beyond position 0
are NOT retained). -/
theorem C1_cex :
    get_passphrase ⟨1, true, 0, []⟩ [['a', 'B', 'c']] rnd0 =
      .ok ['A', 'b', 'c'] ∧ (['A', 'b', 'c'] : List Char) ≠ ['A', 'B', 'c'] := by
  decide

/-- C1 amended: when `config.capitalize` is true (and with no
special-character passes to disturb the joined string), each selected
word is transformed by Python `str.capitalize`: first character
upper-cased and ALL remaining characters lower-cased, so uppercase
letters beyond position 0 are not retained. -/
theorem C1_capitalize (opts : Options) (wl : List (List Char)) (r : Rnd)
    (ws : List (List Char)) (r1 : Rnd) (res : List Char)
    (hcap : opts.capitalize = true) (hspec : opts.specials = 0)
    (hsel : select_words opts.num.toNat wl r = .ok (ws, r1))
    (hgen : get_passphrase opts wl r = .ok res) :
    res = pyJoin opts.delimiter (ws.map fun w =>
      match w with
      | [] => []
      | c :: cs => c.toUpper :: cs.map Char.toLower) := by
  rw [get_passphrase] at hgen
  split at hgen
  · exact absurd hgen (by simp)
  · rename_i ws' r1' hsel'
    rw [hsel] at hsel'
    simp only [Except.ok.injEq, Prod.mk.injEq] at hsel'
    obtain ⟨hws, _⟩ := hsel'
    subst hws
    rw [hcap, hspec] at hgen
    simp only [if_true, Int.toNat_zero, apply_specials, Except.ok.injEq] at hgen
    exact hgen.symm

theorem C1_witness :
    (['A', 'b'] : List Char) = pyJoin [] ([['a', 'B']].map fun w =>
      match w with
      | [] => []
      | c :: cs => c.toUpper :: cs.map Char.toLower) :=
  C1_capitalize ⟨1, true, 0, []⟩ [['a', 'B']] rnd0 [['a', 'B']]
    (Rnd.next rnd0) ['A', 'b'] rfl rfl rfl rfl

/-- C3 counterexample: with capitalization on (the default), the
passphrase can contain characters outside the union of wordlist
characters, delimiter characters and `SPECIAL_CHARS`: from the wordlist
`["alpha"]` the passphrase is `"Alpha"`, and `'A'` is in none of the
three sets. -/
theorem C3_cex :
    get_passphrase ⟨1, true, 0, []⟩ [['a', 'l', 'p', 'h', 'a']] rnd0 =
      .ok ['A', 'l', 'p', 'h', 'a'] ∧
    'A' ∉ ([['a', 'l', 'p', 'h', 'a']] : List (List Char)).flatten ++
      ([] : List Char) ++ SPECIAL_CHARS := by
  decide

/-- C3 amended: every character of a successful passphrase lies in the
union of the characters of the wordlist's words AFTER the optional
capitalization transform, the delimiter characters, and
`SPECIAL_CHARS`. -/
theorem C3_charset (opts : Options) (wl : List (List Char)) (r : Rnd)
    (res : List Char) (_hwl : wl ≠ []) (_hnum : 1 ≤ opts.num)
    (hgen : get_passphrase opts wl r = .ok res) :
    ∀ c ∈ res,
      c ∈ (if opts.capitalize then wl.map pyCapitalize else wl).flatten ∨
      c ∈ opts.delimiter ∨ c ∈ SPECIAL_CHARS := by
  rw [get_passphrase] at hgen
  split at hgen
  · exact absurd hgen (by simp)
  · rename_i ws r1 hsel
    split at hgen
    · exact absurd hgen (by simp)
    · rename_i res' r2 happ
      simp only [Except.ok.injEq] at hgen
      subst hgen
      intro c hc
      rcases apply_specials_ok_mem happ c hc with h1 | h1
      · rcases pyJoin_mem h1 with ⟨w, hw, hcw⟩ | h2
        · left
          rw [List.mem_flatten]
          cases hcap : opts.capitalize
          · rw [hcap] at hw
            simp only [if_neg Bool.false_ne_true] at hw ⊢
            exact ⟨w, select_words_ok_mem hsel w hw, hcw⟩
          · rw [hcap] at hw
            simp only [if_true] at hw ⊢
            obtain ⟨w0, hw0, hweq⟩ := List.mem_map.mp hw
            refine ⟨w, ?_, hcw⟩
            rw [← hweq]
            exact List.mem_map_of_mem pyCapitalize
              (select_words_ok_mem hsel w0 hw0)
        · exact .inr (.inl h2)
      · exact .inr (.inr h1)

theorem C3_witness :
    'A' ∈ ([['a', 'b']].map pyCapitalize).flatten ∨
    'A' ∈ ([] : List Char) ∨ 'A' ∈ SPECIAL_CHARS :=
  C3_charset ⟨1, true, 0, []⟩ [['a', 'b']] rnd0 ['A', 'b'] (by decide)
    (by decide) rfl 'A' (by decide)

/-- C8 counterexample: the Python regex `^[a-zA-Z]{2}$` is checked with
`re.match`, and in Python `$` also matches just before a single trailing
newline, so the three-character string `"ab\n"` is NOT two ASCII letters
yet `get_wordlist_path` does not raise `ValueError` on it. -/
theorem C8_cex :
    twoAsciiLetters ['a', 'b', '\n'] = false ∧
    get_wordlist_path ['a', 'b', '\n'] ≠ .error .valueError := by
  decide

/-- C8 amended: the call `get_wordlist_path lang` fails with `ValueError` iff
`lang` is not of the form "two ASCII letters, optionally followed by a
single trailing newline" (Python `re` `$` semantics); and any two
accepted codes equal up to letter case resolve to the same path, because
the path is built from the lower-cased basename. -/
theorem C8_lang_code :
    (∀ lang : List Char, get_wordlist_path lang = .error .valueError ↔
      ¬ ∃ a b, isAsciiLetter a = true ∧ isAsciiLetter b = true ∧
        (lang = [a, b] ∨ lang = [a, b, '\n'])) ∧
    (∀ l1 l2 : List Char, l1.map Char.toLower = l2.map Char.toLower →
      get_wordlist_path l1 ≠ .error .valueError →
      get_wordlist_path l2 ≠ .error .valueError →
      get_wordlist_path l1 = get_wordlist_path l2) := by
  constructor
  · intro lang
    rw [get_wordlist_path]
    split
    · rename_i hm
      simp only [reduceCtorEq, false_iff, not_not]
      match lang, hm with
      | [a, b], hm =>
          simp only [re_lang_code_match, Bool.and_eq_true] at hm
          exact ⟨a, b, hm.1, hm.2, .inl rfl⟩
      | [a, b, c], hm =>
          simp only [re_lang_code_match, Bool.and_eq_true, beq_iff_eq] at hm
          exact ⟨a, b, hm.1.1, hm.1.2, .inr (by rw [hm.2])⟩
    · rename_i hm
      simp only [true_iff]
      rintro ⟨a, b, ha, hb, hl | hl⟩ <;> subst hl <;>
        exact hm (by simp [re_lang_code_match, ha, hb])
  · intro l1 l2 hlow h1 h2
    have hm1 : re_lang_code_match l1 = true := by
      by_contra hm
      rw [get_wordlist_path, if_neg (by simpa using hm)] at h1
      exact h1 rfl
    have hm2 : re_lang_code_match l2 = true := by
      by_contra hm
      rw [get_wordlist_path, if_neg (by simpa using hm)] at h2
      exact h2 rfl
    rw [get_wordlist_path, get_wordlist_path, if_pos hm1, if_pos hm2]
    simp only [List.map_append, hlow]

theorem C8_witness :
    get_wordlist_path ['e', 'N'] = get_wordlist_path ['E', 'n'] :=
  C8_lang_code.2 ['e', 'N'] ['E', 'n'] (by decide) (by decide) (by decide)
